import Mathlib

set_option maxRecDepth 8000

/-!
Shallow embedding of the SPI NOR flash programmer in src/flash.rs
(struct FlashProgrammer) and the simulated chip model the spec tests it
against.  Pure data and control flow are translated directly from the
Rust source; physical pin wiggling is abstracted to the sequence of bus
transactions it produces, and the external flash chip is the spec's
simulated model (erase sets a 65536-byte block to 0xFF, page program can
only clear bits, the status register's bit 0 is a busy flag).
-/

/-- Opcode constant PROGRAM (flash.rs line 20). -/
def PROGRAM : Nat := 0x02

/-- Opcode constant READ (flash.rs line 21). -/
def READ : Nat := 0x03

/-- Opcode constant WRITE_DISABLE (flash.rs line 23). -/
def WRITE_DISABLE : Nat := 0x04

/-- Opcode constant READ_STATUS_1 (flash.rs line 24). -/
def READ_STATUS_1 : Nat := 0x05

/-- Opcode constant WRITE_ENABLE (flash.rs line 25). -/
def WRITE_ENABLE : Nat := 0x06

/-- Opcode constant BLOCK_ERASE (flash.rs line 26). -/
def BLOCK_ERASE : Nat := 0xD8

/-- Opcode constant WAKE (flash.rs line 27). -/
def WAKE : Nat := 0xAB

/-- Levels driven on the data-out line by fn write (flash.rs 143-153):
for i in (0..8).rev, the level is (byte & (1 << i)) > 0, so the byte is
emitted one bit per clock pulse in the order bit 7 first, bit 0 last. -/
def writeLevels (byte : Nat) : List Bool :=
  (List.range 8).reverse.map (fun i => decide (0 < Nat.land byte (1 <<< i)))

/-- Loop body of fn read (flash.rs 127-141): on iteration i the sampled
level is or-ed into the accumulator, which is then shifted left except on
the last iteration. -/
def readLoop : Nat → Nat → List Bool → Nat
  | value, _, [] => value
  | value, i, l :: ls =>
    let v1 := Nat.lor value (if l then 1 else 0)
    let v2 := if i < 7 then v1 <<< 1 else v1
    readLoop v2 (i + 1) ls

/-- fn read (flash.rs 127-141) assembles the 8 sampled levels into a byte,
starting from accumulator 0 at iteration 0. -/
def readByte (levels : List Bool) : Nat := readLoop 0 0 levels

/-- fn write_address (flash.rs 155-159): the three bytes written on the
bus for an address, in order; the Rust cast as u8 is mod 256. -/
def addressBytes (address : Nat) : List Nat :=
  [(address >>> 16) % 256, (address >>> 8) % 256, address % 256]

/-- One bus transaction, delimited by a chip-select assert and deassert.
statusRead carries the status byte the chip answered, pageRead the 256
bytes the chip answered. -/
inductive Op where
  | statusRead (value : Nat)
  | writeEnable
  | program (address : Nat) (data : List Nat)
  | eraseBlock (address : Nat)
  | pageRead (address : Nat) (out : List Nat)
deriving DecidableEq

/-- Bytes the programmer writes on the bus inside each transaction,
between chip-select assert and deassert, read off the corresponding
source functions: status (183-191), write_enable (193-199), write_page
(161-181), erase_block (236-245), read_page (201-216). -/
def Op.writtenBytes : Op → List Nat
  | .statusRead _ => [READ_STATUS_1]
  | .writeEnable => [WRITE_ENABLE]
  | .program a d => PROGRAM :: (addressBytes a ++ d)
  | .eraseBlock a => BLOCK_ERASE :: addressBytes a
  | .pageRead a _ => READ :: addressBytes a

/-- Is the transaction a page program? -/
def Op.isProgram : Op → Bool
  | .program _ _ => true
  | _ => false

/-- Is the transaction a block erase? -/
def Op.isErase : Op → Bool
  | .eraseBlock _ => true
  | _ => false

/-- Modelled from the spec (sections 3, 8): the simulated flash chip.
mem is the byte stored at each address; busy is the number of status
polls that still report the busy bit set (spec 8: a chip busy for the
first k polls causes k+1 status reads). -/
structure Chip where
  mem : Nat → Nat
  busy : Nat

/-- Modelled from the spec: the status byte answered by the chip; bit 0
is the busy flag, the other bits are not interpreted. -/
def Chip.statusByte (c : Chip) : Nat := if 0 < c.busy then 1 else 0

/-- Modelled from the spec (section 8): block erase sets every byte of
the 65536-byte block containing the address to 0xFF. -/
def Chip.eraseAt (c : Chip) (address : Nat) : Chip :=
  { c with mem := fun x => if x / 65536 = address / 65536 then 0xFF else c.mem x }

/-- Modelled from the spec (section 8, glossary): page program can only
clear bits, so each programmed byte is the bitwise and of the stored
byte with the data byte. -/
def Chip.programAt (c : Chip) (address : Nat) (data : List Nat) : Chip :=
  { c with mem := fun x =>
      if address ≤ x ∧ x < address + data.length then
        Nat.land (c.mem x) (data.getD (x - address) 0)
      else c.mem x }

/-- Bytes answered by the chip for a sequential read of n bytes starting
at the given address (the chip auto-increments internally). -/
def readBytes (c : Chip) (address n : Nat) : List Nat :=
  (List.range n).map (fun j => c.mem (address + j))

/-- fn status (flash.rs 183-191): one READ_STATUS_1 transaction returning
the chip's status byte. -/
def status (c : Chip) : Nat × List Op := (c.statusByte, [Op.statusRead c.statusByte])

/-- fn write_enable (flash.rs 193-199): assert, write WRITE_ENABLE,
deassert. -/
def write_enable : List Op := [Op.writeEnable]

/-- Loop of fn await_ready, with explicit fuel so the recursion is
structural; the fuel never runs out when it starts at the busy
countdown, since each busy poll consumes one unit of it. -/
def awaitAux : Nat → Chip → Chip × List Op
  | 0, c => (c, [Op.statusRead c.statusByte])
  | fuel + 1, c =>
    if 0 < c.busy then
      let rest := awaitAux fuel { c with busy := c.busy - 1 }
      (rest.1, Op.statusRead c.statusByte :: rest.2)
    else
      (c, [Op.statusRead c.statusByte])

/-- fn await_ready (flash.rs 247-249): poll status until bit 0 of the
returned byte is clear.  Against the modelled chip the loop guard
(status & 1) > 0 holds exactly while the busy countdown is positive, and
each poll consumes one unit of it, so the loop runs busy + 1 times. -/
def await_ready (c : Chip) : Chip × List Op := awaitAux c.busy c

/-- fn erase_block (flash.rs 236-245): write_enable, then assert, write
BLOCK_ERASE and the 3 address bytes, deassert; the modelled chip erases
the containing block. -/
def erase_block (c : Chip) (address : Nat) : Chip × List Op :=
  (c.eraseAt address, write_enable ++ [Op.eraseBlock address])

/-- fn write_page (flash.rs 161-181): bail out if the data exceeds 256
bytes, before any bus activity; otherwise write_enable, then assert,
write PROGRAM, the 3 address bytes and the data bytes, deassert; the
modelled chip programs the bytes. -/
def write_page (c : Chip) (data : List Nat) (address : Nat) :
    Except String (Chip × List Op) :=
  if 256 < data.length then .error "Page data must not exceed 256 bytes"
  else .ok (c.programAt address data, write_enable ++ [Op.program address data])

/-- fn read_page (flash.rs 201-216): assert, write READ and the 3 address
bytes, read 256 bytes, deassert. -/
def read_page (c : Chip) (address : Nat) : List Nat × List Op :=
  (readBytes c address 256, [Op.pageRead address (readBytes c address 256)])

/-- fn read_arbitrary (flash.rs 218-234): same transaction with an
arbitrary length. -/
def read_arbitrary (c : Chip) (address length : Nat) : List Nat × List Op :=
  (readBytes c address length, [Op.pageRead address (readBytes c address length)])

/-- Recursion of Rust slice chunks(n), with explicit fuel so the
recursion is structural; the fuel never runs out when it starts at the
list length, since each chunk consumes at least one element. -/
def chunksAux (n : Nat) : Nat → List α → List (List α)
  | _, [] => []
  | 0, _ :: _ => []
  | fuel + 1, x :: xs => (x :: xs.take (n - 1)) :: chunksAux n fuel (xs.drop (n - 1))

/-- Rust slice chunks(n) for n ≥ 1: splits a list into successive chunks
of n elements, the last chunk possibly shorter, none empty. -/
def chunks (n : Nat) (l : List α) : List (List α) := chunksAux n l.length l

/-- Inner loop of fn flash_data (flash.rs 90-95): for each page of the
current block, await_ready then write_page at address + offset,
advancing the running offset by the page length.  Threads the chip and
collects the transaction trace; the progress bar is elided. -/
def flash_pages (c : Chip) (pages : List (List Nat)) (address off : Nat) :
    Except String (Chip × Nat × List Op) :=
  match pages with
  | [] => .ok (c, off, [])
  | page :: rest =>
    let a := await_ready c
    match write_page a.1 page (address + off) with
    | .error e => .error e
    | .ok w =>
      match flash_pages w.1 rest address (off + page.length) with
      | .error e => .error e
      | .ok r => .ok (r.1, r.2.1, a.2 ++ w.2 ++ r.2.2)

/-- Outer loop of fn flash_data (flash.rs 86-96): for each 65536-byte
block, await_ready, erase_block at address + offset, then program its
256-byte pages. -/
def flash_blocks (c : Chip) (blocks : List (List Nat)) (address off : Nat) :
    Except String (Chip × Nat × List Op) :=
  match blocks with
  | [] => .ok (c, off, [])
  | block :: rest =>
    let a := await_ready c
    let e := erase_block a.1 (address + off)
    match flash_pages e.1 (chunks 256 block) address off with
    | .error err => .error err
    | .ok r =>
      match flash_blocks r.1 rest address r.2.1 with
      | .error err => .error err
      | .ok r2 => .ok (r2.1, r2.2.1, a.2 ++ e.2 ++ r.2.2 ++ r2.2.2)

/-- fn flash_data (flash.rs 81-99): partition the buffer into 65536-byte
chunks and program them starting at offset 0. -/
def flash_data (c : Chip) (data : List Nat) (address : Nat) :
    Except String (Chip × List Op) :=
  match flash_blocks c (chunks 65536 data) address 0 with
  | .error e => .error e
  | .ok r => .ok (r.1, r.2.2)

/-- Structured content of the verification bailout message of fn
verify_data (flash.rs 112-116): page is address_offset / 256, index is
i + address_offset, plus the expected and actual byte. -/
inductive VerifyError where
  | mismatch (page index expected actual : Nat)
deriving DecidableEq

/-- Comparison loop of fn verify_data (flash.rs 110-118): scan the
zipped expected and read bytes in order and return the first index at
which they differ, with the two differing bytes. -/
def firstMismatch : List Nat → List Nat → Option (Nat × Nat × Nat)
  | e :: es, r :: rs =>
    if e ≠ r then some (0, e, r)
    else (firstMismatch es rs).map (fun p => (p.1 + 1, p.2.1, p.2.2))
  | _, _ => none

/-- Loop of fn verify_data (flash.rs 107-122): for each 256-byte chunk
of the expected buffer, read back a page at address + offset and fail on
the first byte that differs, citing page offset / 256 and absolute index
i + offset. -/
def verify_chunks (c : Chip) (inputs : List (List Nat)) (address off : Nat) :
    Except VerifyError Unit :=
  match inputs with
  | [] => .ok ()
  | input :: rest =>
    match firstMismatch input (read_page c (address + off)).1 with
    | some m => .error (.mismatch (off / 256) (m.1 + off) m.2.1 m.2.2)
    | none => verify_chunks c rest address (off + input.length)

/-- fn verify_data (flash.rs 101-125): await_ready once, then compare
every 256-byte chunk of the buffer against the chip. -/
def verify_data (c : Chip) (data : List Nat) (address : Nat) :
    Except VerifyError Unit :=
  verify_chunks (await_ready c).1 (chunks 256 data) address 0

/-- Chip state after a flash_data run, the initial chip if it failed. -/
def flashedChip (c : Chip) (data : List Nat) (address : Nat) : Chip :=
  match flash_data c data address with
  | .ok r => r.1
  | .error _ => c

/-- Transaction trace of a flash_data run, empty if it failed. -/
def flashedTrace (c : Chip) (data : List Nat) (address : Nat) : List Op :=
  match flash_data c data address with
  | .ok r => r.2
  | .error _ => []

/-- A concrete chip whose memory is all zero and which is never busy. -/
def chip0 : Chip := ⟨fun _ => 0, 0⟩

/-- Shape of a chunk list produced by chunks n: every chunk except the
last has exactly n elements, and the last has at most n. -/
def chunksShape (n : Nat) : List (List α) → Prop
  | [] => True
  | [b] => b.length ≤ n
  | b :: b2 :: bs => b.length = n ∧ chunksShape n (b2 :: bs)

/-- Total form of the inner flash_data loop: since every page fed to it
has at most 256 bytes, the write_page guard never fires, and the run is
this total function. -/
def pagesRun (c : Chip) (pages : List (List Nat)) (address off : Nat) :
    Chip × Nat × List Op :=
  match pages with
  | [] => (c, off, [])
  | page :: rest =>
    let a := await_ready c
    let c2 := (a.1).programAt (address + off) page
    let r := pagesRun c2 rest address (off + page.length)
    (r.1, r.2.1, a.2 ++ (write_enable ++ [Op.program (address + off) page]) ++ r.2.2)

/-- Total form of the outer flash_data loop. -/
def blocksRun (c : Chip) (blocks : List (List Nat)) (address off : Nat) :
    Chip × Nat × List Op :=
  match blocks with
  | [] => (c, off, [])
  | block :: rest =>
    let a := await_ready c
    let e := erase_block a.1 (address + off)
    let r := pagesRun e.1 (chunks 256 block) address off
    let r2 := blocksRun r.1 rest address r.2.1
    (r2.1, r2.2.1, a.2 ++ e.2 ++ r.2.2 ++ r2.2.2)

/-- Expected page-program transactions: one per page, at consecutive
addresses accumulating the page lengths onto the running offset. -/
def pageProgs (address : Nat) : Nat → List (List Nat) → List Op
  | _, [] => []
  | off, p :: ps => Op.program (address + off) p :: pageProgs address (off + p.length) ps

/-- Expected block-erase transactions: one per block, at consecutive
addresses accumulating the block lengths onto the running offset. -/
def blockErases (address : Nat) : Nat → List (List Nat) → List Op
  | _, [] => []
  | off, b :: bs => Op.eraseBlock (address + off) :: blockErases address (off + b.length) bs

/-- Busy-wait gating checker state transition: the first component is
whether the scan is still valid, the second whether a status read
observing a clear busy bit has occurred since the last program or
erase. -/
def gateStep : Bool × Bool → Op → Bool × Bool
  | (ok, ready), .statusRead s => (ok, ready || (Nat.land s 1 == 0))
  | (ok, ready), .writeEnable => (ok, ready)
  | (ok, ready), .pageRead _ _ => (ok, ready)
  | (ok, ready), .program _ _ => (ok && ready, false)
  | (ok, ready), .eraseBlock _ => (ok && ready, false)

/-- A trace is busy-gated when every program and every erase transaction
is preceded by a status read observing the busy bit clear, issued after
the previous program or erase. -/
def busyGated (t : List Op) : Bool := (t.foldl gateStep (true, false)).1

/-- Erase-covering checker state transition: the first component is
validity, the second the address of the most recent block erase. -/
def coverStep : Bool × Option Nat → Op → Bool × Option Nat
  | (ok, le), .statusRead _ => (ok, le)
  | (ok, le), .writeEnable => (ok, le)
  | (ok, le), .pageRead _ _ => (ok, le)
  | (ok, _), .eraseBlock a => (ok, some a)
  | (ok, le), .program a d =>
    (ok && match le with
      | some e => decide (e ≤ a ∧ a + d.length ≤ e + 65536)
      | none => false, le)

/-- A trace is erase-covered when every page program falls entirely
within the 65536-byte span starting at the most recent block erase
address. -/
def eraseCovered (t : List Op) : Bool := (t.foldl coverStep (true, none)).1

/-- Write-enable adjacency checker state transition: the first component
is validity, the second whether the immediately preceding transaction
was a write enable. -/
def weStep : Bool × Bool → Op → Bool × Bool
  | (ok, _), .writeEnable => (ok, true)
  | (ok, w), .program _ _ => (ok && w, false)
  | (ok, w), .eraseBlock _ => (ok && w, false)
  | (ok, _), .statusRead _ => (ok, false)
  | (ok, _), .pageRead _ _ => (ok, false)

/-- Every program and every erase transaction is immediately preceded by
a write-enable transaction. -/
def writeEnabled (t : List Op) : Bool := (t.foldl weStep (true, false)).1

/-- A concrete chip whose memory differs from an all-zero buffer first
at absolute byte 300. -/
def chipMis : Chip := ⟨fun x => if x = 300 then 1 else 0, 0⟩

/-- The fuel argument of chunksAux is irrelevant once it covers the list
length. -/
theorem chunksAux_congr (n : Nat) :
    ∀ (f : Nat) (l : List α) (g : Nat), l.length ≤ f → l.length ≤ g →
      chunksAux n f l = chunksAux n g l := by
  intro f
  induction f with
  | zero =>
    intro l g hf _
    cases l with
    | nil => cases g <;> rfl
    | cons x xs => simp at hf
  | succ f ih =>
    intro l g hf hg
    cases l with
    | nil => cases g <;> rfl
    | cons x xs =>
      cases g with
      | zero => simp at hg
      | succ g =>
        simp only [chunksAux, List.cons.injEq, true_and]
        apply ih
        · simp only [List.length_drop]
          simp only [List.length_cons] at hf
          omega
        · simp only [List.length_drop]
          simp only [List.length_cons] at hg
          omega

/-- Unfolding equation for chunks on a nonempty list. -/
theorem chunks_cons (n : Nat) (x : α) (xs : List α) :
    chunks n (x :: xs) = (x :: xs.take (n - 1)) :: chunks n (xs.drop (n - 1)) := by
  simp only [chunks, List.length_cons, chunksAux, List.cons.injEq, true_and]
  apply chunksAux_congr
  · simp only [List.length_drop]; omega
  · exact le_rfl

/-- Unfolding equation for chunks in take-and-drop form. -/
theorem chunks_eq_cons (n : Nat) (hn : 0 < n) (l : List α) (hl : l ≠ []) :
    chunks n l = l.take n :: chunks n (l.drop n) := by
  cases l with
  | nil => exact absurd rfl hl
  | cons x xs =>
    rw [chunks_cons]
    obtain ⟨m, rfl⟩ : ∃ m, n = m + 1 := ⟨n - 1, by omega⟩
    simp [List.take_succ_cons, List.drop_succ_cons]

/-- Concatenating the chunks gives back the original list. -/
theorem chunks_flatten (n : Nat) : ∀ (l : List α), (chunks n l).flatten = l := by
  suffices h : ∀ (f : Nat) (l : List α), l.length ≤ f → (chunksAux n f l).flatten = l by
    intro l; exact h l.length l le_rfl
  intro f
  induction f with
  | zero =>
    intro l h
    cases l with
    | nil => rfl
    | cons x xs => simp at h
  | succ f ih =>
    intro l h
    cases l with
    | nil => rfl
    | cons x xs =>
      simp only [chunksAux, List.flatten_cons]
      rw [ih]
      · simp [List.take_append_drop]
      · simp only [List.length_drop]
        simp only [List.length_cons] at h
        omega

/-- Every chunk has at most n elements. -/
theorem chunks_le (n : Nat) (hn : 0 < n) :
    ∀ (l : List α), ∀ p ∈ chunks n l, p.length ≤ n := by
  suffices h : ∀ (f : Nat) (l : List α), l.length ≤ f →
      ∀ p ∈ chunksAux n f l, p.length ≤ n by
    intro l; exact h l.length l le_rfl
  intro f
  induction f with
  | zero =>
    intro l h p hp
    cases l with
    | nil => simp [chunksAux] at hp
    | cons x xs => simp at h
  | succ f ih =>
    intro l h p hp
    cases l with
    | nil => simp [chunksAux] at hp
    | cons x xs =>
      simp only [chunksAux, List.mem_cons] at hp
      rcases hp with rfl | hp
      · simp only [List.length_cons, List.length_take]
        omega
      · apply ih _ _ p hp
        simp only [List.length_drop]
        simp only [List.length_cons] at h
        omega

/-- chunksAux returns no chunks only for the empty list. -/
theorem chunksAux_eq_nil (n : Nat) :
    ∀ (f : Nat) (l : List α), l.length ≤ f → (chunksAux n f l = [] ↔ l = []) := by
  intro f l h
  cases f with
  | zero =>
    cases l with
    | nil => simp [chunksAux]
    | cons x xs => simp at h
  | succ f =>
    cases l with
    | nil => simp [chunksAux]
    | cons x xs => simp [chunksAux]

/-- The chunks function produces a chunk list of the expected shape. -/
theorem chunks_shape (n : Nat) (hn : 0 < n) :
    ∀ (l : List α), chunksShape n (chunks n l) := by
  suffices h : ∀ (f : Nat) (l : List α), l.length ≤ f →
      chunksShape n (chunksAux n f l) by
    intro l; exact h l.length l le_rfl
  intro f
  induction f with
  | zero =>
    intro l h
    cases l with
    | nil => trivial
    | cons x xs => simp at h
  | succ f ih =>
    intro l h
    cases l with
    | nil => trivial
    | cons x xs =>
      simp only [List.length_cons] at h
      have hdrop : (xs.drop (n - 1)).length ≤ f := by
        simp only [List.length_drop]; omega
      have htail := ih (xs.drop (n - 1)) hdrop
      simp only [chunksAux]
      rcases hrest : chunksAux n f (xs.drop (n - 1)) with _ | ⟨b2, bs⟩
      · have : (x :: xs.take (n - 1)).length ≤ n := by
          simp only [List.length_cons, List.length_take]; omega
        simpa [chunksShape] using this
      · have hne : xs.drop (n - 1) ≠ [] := by
          intro hnil
          rw [hnil] at hrest
          simp [chunksAux] at hrest
        have hlen : n - 1 ≤ xs.length := by
          by_contra hlt
          apply hne
          simp only [List.drop_eq_nil_iff]
          omega
        constructor
        · simp only [List.length_cons, List.length_take]
          omega
        · rw [← hrest]; exact htail

/-- Number of chunks: the ceiling of length over n. -/
theorem chunks_length (n : Nat) (hn : 0 < n) :
    ∀ (l : List α), (chunks n l).length = (l.length + n - 1) / n := by
  suffices h : ∀ (f : Nat) (l : List α), l.length ≤ f →
      (chunksAux n f l).length = (l.length + n - 1) / n by
    intro l; exact h l.length l le_rfl
  intro f
  induction f with
  | zero =>
    intro l h
    cases l with
    | nil =>
      simp only [chunksAux, List.length_nil]
      rw [Nat.div_eq_of_lt (by omega)]
    | cons x xs => simp at h
  | succ f ih =>
    intro l h
    cases l with
    | nil =>
      simp only [chunksAux, List.length_nil]
      rw [Nat.div_eq_of_lt (by omega)]
    | cons x xs =>
      simp only [List.length_cons] at h
      simp only [chunksAux, List.length_cons]
      rw [ih]
      · simp only [List.length_drop]
        have h2 : xs.length + 1 + n - 1 = xs.length + n := by omega
        rw [h2, Nat.add_div_right _ hn]
        rcases Nat.lt_or_ge xs.length n with hlt | hge
        · have h1 : xs.length - (n - 1) + n - 1 < n := by omega
          rw [Nat.div_eq_of_lt h1, Nat.div_eq_of_lt hlt]
        · have h1 : xs.length - (n - 1) + n - 1 = xs.length := by omega
          rw [h1]
      · simp only [List.length_drop]; omega

/-- Chunking distributes over append when the first part is a multiple
of the chunk size. -/
theorem chunks_append (n : Nat) (hn : 0 < n) :
    ∀ (k : Nat) (l1 l2 : List α), l1.length = k * n →
      chunks n (l1 ++ l2) = chunks n l1 ++ chunks n l2 := by
  intro k
  induction k with
  | zero =>
    intro l1 l2 h
    have : l1 = [] := List.eq_nil_of_length_eq_zero (by omega)
    subst this
    rfl
  | succ k ih =>
    intro l1 l2 h
    have hlen : n ≤ l1.length := by
      rw [h]; calc n = 1 * n := (one_mul n).symm
        _ ≤ (k + 1) * n := Nat.mul_le_mul_right n (by omega)
    have hne : l1 ≠ [] := by
      intro hnil; rw [hnil] at hlen; simp at hlen; omega
    have hne2 : l1 ++ l2 ≠ [] := by
      intro hnil
      exact hne (List.append_eq_nil.mp hnil).1
    rw [chunks_eq_cons n hn (l1 ++ l2) hne2, chunks_eq_cons n hn l1 hne]
    rw [List.take_append_of_le_length hlen, List.drop_append_of_le_length hlen]
    rw [ih (l1.drop n) l2 (by simp only [List.length_drop, h, Nat.succ_mul]; omega)]
    simp

/-- Chunking into k-chunks factors through chunking into n-chunks when k
divides n. -/
theorem chunks_nested (n k : Nat) (hn : 0 < n) (hk : 0 < k) (hdvd : k ∣ n) :
    ∀ (l : List α), ((chunks n l).map (chunks k)).flatten = chunks k l := by
  suffices h : ∀ (f : Nat) (l : List α), l.length ≤ f →
      ((chunksAux n f l).map (chunks k)).flatten = chunks k l by
    intro l; exact h l.length l le_rfl
  intro f
  induction f with
  | zero =>
    intro l h
    cases l with
    | nil => rfl
    | cons x xs => simp at h
  | succ f ih =>
    intro f0
    intro h
    cases f0 with
    | nil => rfl
    | cons x xs =>
      simp only [List.length_cons] at h
      simp only [chunksAux, List.map_cons, List.flatten_cons]
      rw [ih (xs.drop (n - 1)) (by simp only [List.length_drop]; omega)]
      have hhead : x :: xs.take (n - 1) = (x :: xs).take n := by
        obtain ⟨m, rfl⟩ : ∃ m, n = m + 1 := ⟨n - 1, by omega⟩
        simp [List.take_succ_cons]
      have hdrop : xs.drop (n - 1) = (x :: xs).drop n := by
        obtain ⟨m, rfl⟩ : ∃ m, n = m + 1 := ⟨n - 1, by omega⟩
        simp [List.drop_succ_cons]
      rw [hhead, hdrop]
      rcases Nat.lt_or_ge xs.length (n - 1) with hlt | hge
      · have htake : (x :: xs).take n = x :: xs := by
          apply List.take_of_length_le
          simp only [List.length_cons]; omega
        have hdrop2 : (x :: xs).drop n = [] := by
          simp only [List.drop_eq_nil_iff, List.length_cons]; omega
        rw [htake, hdrop2]
        simp [chunks, chunksAux]
      · obtain ⟨m, hm⟩ := hdvd
        have hlen : ((x :: xs).take n).length = m * k := by
          simp only [List.length_take, List.length_cons]
          rw [min_eq_left (by omega), hm, Nat.mul_comm]
        rw [← chunks_append k hk m _ _ hlen, List.take_append_drop]

/-- await_ready leaves the memory untouched and clears the busy
countdown. -/
theorem await_ready_fst (c : Chip) : (await_ready c).1 = ⟨c.mem, 0⟩ := by
  suffices h : ∀ (f : Nat) (c : Chip), c.busy ≤ f → (awaitAux f c).1 = ⟨c.mem, 0⟩ by
    exact h c.busy c le_rfl
  intro f
  induction f with
  | zero =>
    intro c h
    simp only [awaitAux]
    have : c.busy = 0 := by omega
    cases c
    simp_all
  | succ f ih =>
    intro c h
    simp only [awaitAux]
    split
    · exact ih _ (by simp only []; omega)
    · cases c
      simp_all

/-- The transactions of one await_ready call: as many busy status reads
as the busy countdown, then one status read observing the clear bit. -/
theorem await_ready_trace (c : Chip) :
    (await_ready c).2 = List.replicate c.busy (Op.statusRead 1) ++ [Op.statusRead 0] := by
  suffices h : ∀ (f : Nat) (c : Chip), c.busy ≤ f →
      (awaitAux f c).2 = List.replicate c.busy (Op.statusRead 1) ++ [Op.statusRead 0] by
    exact h c.busy c le_rfl
  intro f
  induction f with
  | zero =>
    intro c h
    have h0 : c.busy = 0 := by omega
    simp [awaitAux, h0, Chip.statusByte]
  | succ f ih =>
    intro c h
    simp only [awaitAux]
    split
    · rename_i hb
      rw [ih _ (by simp only []; omega)]
      simp only []
      have h1 : c.statusByte = 1 := by simp [Chip.statusByte, hb]
      obtain ⟨b, hbb⟩ : ∃ b, c.busy = b + 1 := ⟨c.busy - 1, by omega⟩
      rw [h1, hbb]
      simp [List.replicate_succ]
    · rename_i hb
      have h0 : c.busy = 0 := by omega
      simp [h0, Chip.statusByte]

/-- When every page is within the 256-byte bound, flash_pages succeeds
and equals its total form. -/
theorem flash_pages_eq (pages : List (List Nat)) :
    ∀ (c : Chip) (address off : Nat), (∀ p ∈ pages, p.length ≤ 256) →
      flash_pages c pages address off = .ok (pagesRun c pages address off) := by
  induction pages with
  | nil => intro c address off _; rfl
  | cons page rest ih =>
    intro c address off hle
    have hpage : page.length ≤ 256 := hle page (by simp)
    have hrest : ∀ p ∈ rest, p.length ≤ 256 := fun p hp => hle p (by simp [hp])
    simp only [flash_pages, pagesRun, write_page, if_neg (by omega : ¬ 256 < page.length)]
    rw [ih _ address (off + page.length) hrest]

/-- flash_blocks always succeeds and equals its total form: the pages it
feeds to flash_pages come from 256-byte chunking. -/
theorem flash_blocks_eq (blocks : List (List Nat)) :
    ∀ (c : Chip) (address off : Nat),
      flash_blocks c blocks address off = .ok (blocksRun c blocks address off) := by
  induction blocks with
  | nil => intro c address off; rfl
  | cons block rest ih =>
    intro c address off
    have hp := flash_pages_eq (chunks 256 block)
      (erase_block (await_ready c).1 (address + off)).1 address off
      (chunks_le 256 (by omega) block)
    simp only [flash_blocks, blocksRun, hp, ih]

/-- flash_data always succeeds and equals the total run over the
65536-byte chunking of the buffer. -/
theorem flash_data_eq (c : Chip) (data : List Nat) (address : Nat) :
    flash_data c data address =
      .ok ((blocksRun c (chunks 65536 data) address 0).1,
           (blocksRun c (chunks 65536 data) address 0).2.2) := by
  simp only [flash_data]
  rw [flash_blocks_eq]

/-- The flashed chip is the total run's final chip. -/
theorem flashedChip_eq (c : Chip) (data : List Nat) (address : Nat) :
    flashedChip c data address = (blocksRun c (chunks 65536 data) address 0).1 := by
  simp only [flashedChip]
  rw [flash_data_eq]

/-- The flashed trace is the total run's trace. -/
theorem flashedTrace_eq (c : Chip) (data : List Nat) (address : Nat) :
    flashedTrace c data address = (blocksRun c (chunks 65536 data) address 0).2.2 := by
  simp only [flashedTrace]
  rw [flash_data_eq]

/-- The running offset after the inner loop advances by the total page
length. -/
theorem pagesRun_off (pages : List (List Nat)) :
    ∀ (c : Chip) (address off : Nat),
      (pagesRun c pages address off).2.1 = off + pages.flatten.length := by
  induction pages with
  | nil => intro c address off; simp [pagesRun]
  | cons page rest ih =>
    intro c address off
    simp only [pagesRun, List.flatten_cons, List.length_append]
    rw [ih]
    omega

/-- After the inner loop, each byte in the programmed span holds the
bitwise and of its previous value with the corresponding page byte, and
bytes outside the span are untouched; the pages land back to back
starting at address + off. -/
theorem pagesRun_mem (pages : List (List Nat)) :
    ∀ (c : Chip) (address off x : Nat),
      ((pagesRun c pages address off).1).mem x =
        if address + off ≤ x ∧ x < address + off + pages.flatten.length then
          Nat.land (c.mem x) (pages.flatten.getD (x - (address + off)) 0)
        else c.mem x := by
  induction pages with
  | nil =>
    intro c address off x
    simp only [pagesRun, List.flatten_nil, List.length_nil]
    rw [if_neg (by omega)]
  | cons page rest ih =>
    intro c address off x
    simp only [pagesRun]
    rw [ih, await_ready_fst c]
    simp only [Chip.programAt, List.flatten_cons, List.length_append]
    split_ifs with hA hB hC hD hE hF hG <;>
      first
      | omega
      | (rw [List.getD_append_right _ _ _ _ (by omega)]
         have hidx : x - (address + (off + page.length)) =
             x - (address + off) - page.length := by omega
         rw [hidx])
      | (rw [List.getD_append _ _ _ _ (by omega)])
      | rfl

/-- Bound on the flattened length of a chunk list of the expected
shape. -/
theorem chunksShape_flatten_le (n : Nat) :
    ∀ (blocks : List (List α)), chunksShape n blocks →
      blocks.flatten.length ≤ n * blocks.length := by
  intro blocks
  induction blocks with
  | nil => intro _; simp
  | cons b bs ih =>
    intro h
    cases bs with
    | nil =>
      simp only [chunksShape] at h
      simp only [List.flatten_cons, List.flatten_nil, List.append_nil,
        List.length_cons, List.length_nil, Nat.mul_one]
      omega
    | cons b2 bs' =>
      obtain ⟨hb, hrest⟩ := h
      have h2 := ih hrest
      simp only [List.flatten_cons, List.length_append, List.length_cons] at *
      rw [Nat.mul_succ]
      omega

/-- After the outer loop starting at a block-aligned offset, the
programmed span holds the buffer bytes (conjoined onto the erased 0xFF
background), the rest of the erased blocks hold 0xFF, and all other
bytes are untouched. -/
theorem blocksRun_mem (blocks : List (List Nat)) :
    ∀ (c : Chip) (address off x : Nat),
      (address + off) % 65536 = 0 →
      chunksShape 65536 blocks →
      ((blocksRun c blocks address off).1).mem x =
        if address + off ≤ x ∧ x < address + off + blocks.flatten.length then
          Nat.land 255 (blocks.flatten.getD (x - (address + off)) 0)
        else if address + off ≤ x ∧ x < address + off + 65536 * blocks.length then
          255
        else c.mem x := by
  induction blocks with
  | nil =>
    intro c address off x _ _
    simp only [blocksRun, List.flatten_nil, List.length_nil, List.length_nil]
    rw [if_neg (by omega), if_neg (by omega)]
  | cons b bs ih =>
    intro c address off x halign hshape
    simp only [blocksRun]
    have hroff : (pagesRun (erase_block (await_ready c).1 (address + off)).1
        (chunks 256 b) address off).2.1 = off + b.length := by
      rw [pagesRun_off, chunks_flatten]
    have hpm : ∀ y, ((pagesRun (erase_block (await_ready c).1 (address + off)).1
        (chunks 256 b) address off).1).mem y =
        if address + off ≤ y ∧ y < address + off + b.length then
          Nat.land ((erase_block (await_ready c).1 (address + off)).1.mem y)
            (b.getD (y - (address + off)) 0)
        else (erase_block (await_ready c).1 (address + off)).1.mem y := by
      intro y
      rw [pagesRun_mem]
      rw [chunks_flatten]
    have hem : ∀ y, (erase_block (await_ready c).1 (address + off)).1.mem y =
        if y / 65536 = (address + off) / 65536 then 255 else c.mem y := by
      intro y
      rw [await_ready_fst c]
      rfl
    cases bs with
    | nil =>
      have hble : b.length ≤ 65536 := by
        simpa only [chunksShape] using hshape
      simp only [blocksRun, hroff]
      rw [hpm x]
      simp only [List.flatten_cons, List.flatten_nil, List.append_nil,
        List.length_cons, List.length_nil, Nat.mul_one]
      split_ifs with hA hB hC hD <;>
        first
        | omega
        | (rw [hem x, if_pos (by omega)])
        | (rw [hem x, if_neg (by omega)])
    | cons b2 bs' =>
      obtain ⟨hb, hrest⟩ : b.length = 65536 ∧ chunksShape 65536 (b2 :: bs') := hshape
      have hflatle := chunksShape_flatten_le 65536 (b2 :: bs') hrest
      simp only [hroff, hb]
      rw [ih _ address (off + 65536) x (by omega) hrest]
      simp only [List.flatten_cons, List.length_append, List.length_cons, hb]
      have hlast : ∀ y,
          (pagesRun (erase_block (await_ready c).1 (address + off)).1
            (chunks 256 b) address off).1.mem y =
          if address + off ≤ y ∧ y < address + off + 65536 then
            Nat.land 255 (b.getD (y - (address + off)) 0)
          else if y / 65536 = (address + off) / 65536 then 255 else c.mem y := by
        intro y
        rw [hpm y, hb, hem y]
        split_ifs with hA hB hC <;> first | rfl | omega
      rw [hlast x]
      split_ifs with hA hB hC hD hE hF hG hH <;>
        first
        | omega
        | rfl
        | (rw [List.getD_append b (b2 ++ bs'.flatten) _ _ (by omega)])
        | (rw [List.getD_append_right b (b2 ++ bs'.flatten) _ _ (by omega)]
           have hidx : x - (address + off) - b.length =
               x - (address + (off + 65536)) := by omega
           rw [hidx])

/-- Conjoining 255 onto a byte value leaves it unchanged. -/
theorem land_255 (b : Nat) (hb : b < 256) : Nat.land 255 b = b := by
  have h : ∀ f : Fin 256, Nat.land 255 f.val = f.val := by decide
  exact h ⟨b, hb⟩

/-- The bytes answered by a sequential read are the chip memory bytes. -/
theorem readBytes_getD (c : Chip) (address n i : Nat) (h : i < n) :
    (readBytes c address n).getD i 0 = c.mem (address + i) := by
  have hlen : i < (readBytes c address n).length := by
    simp [readBytes]; omega
  rw [List.getD_eq_getElem _ _ hlen]
  simp [readBytes]

/-- If the compared prefixes agree, the scan reports no mismatch. -/
theorem firstMismatch_none :
    ∀ (e r : List Nat), (∀ i, i < e.length → i < r.length → e.getD i 0 = r.getD i 0) →
      firstMismatch e r = none := by
  intro e
  induction e with
  | nil => intro r _; cases r <;> rfl
  | cons x xs ih =>
    intro r h
    cases r with
    | nil => rfl
    | cons y ys =>
      have h0 : x = y := by
        have := h 0 (by simp) (by simp)
        simpa using this
      simp only [firstMismatch]
      rw [if_neg (show ¬(x ≠ y) by omega)]
      rw [ih ys]
      · rfl
      · intro i hi1 hi2
        have := h (i + 1) (by simpa using hi1) (by simpa using hi2)
        simpa using this

/-- If the compared bytes agree strictly below k and differ at k, the
scan reports the mismatch at k with the two differing bytes. -/
theorem firstMismatch_some :
    ∀ (k : Nat) (e r : List Nat), k < e.length → k < r.length →
      (∀ m, m < k → e.getD m 0 = r.getD m 0) → e.getD k 0 ≠ r.getD k 0 →
      firstMismatch e r = some (k, e.getD k 0, r.getD k 0) := by
  intro k
  induction k with
  | zero =>
    intro e r he hr _ hne
    cases e with
    | nil => simp at he
    | cons x xs =>
      cases r with
      | nil => simp at hr
      | cons y ys =>
        simp only [List.getD_cons_zero] at hne ⊢
        simp only [firstMismatch, if_pos hne]
  | succ k ih =>
    intro e r he hr hlt hne
    cases e with
    | nil => simp at he
    | cons x xs =>
      cases r with
      | nil => simp at hr
      | cons y ys =>
        have h0 : x = y := by
          have := hlt 0 (by omega)
          simpa using this
        simp only [List.getD_cons_succ] at hne ⊢
        simp only [firstMismatch]
        rw [if_neg (show ¬(x ≠ y) by omega)]
        rw [ih xs ys (by simpa using he) (by simpa using hr)
          (fun m hm => by simpa using hlt (m + 1) (by omega)) hne]
        rfl

/-- If the chip memory holds the expected bytes over the whole span, the
verify loop succeeds. -/
theorem verify_chunks_ok :
    ∀ (inputs : List (List Nat)) (c : Chip) (address off : Nat),
      (∀ p ∈ inputs, p.length ≤ 256) →
      (∀ i, i < inputs.flatten.length →
        inputs.flatten.getD i 0 = c.mem (address + off + i)) →
      verify_chunks c inputs address off = .ok () := by
  intro inputs
  induction inputs with
  | nil => intro c address off _ _; rfl
  | cons input rest ih =>
    intro c address off hle h
    have hinput : input.length ≤ 256 := hle input (by simp)
    have hnone : firstMismatch input (read_page c (address + off)).1 = none := by
      apply firstMismatch_none
      intro i hi1 hi2
      have hflat : input.getD i 0 = (input ++ rest.flatten).getD i 0 :=
        (List.getD_append _ _ _ _ hi1).symm
      rw [hflat]
      have hmem := h i (by simp only [List.flatten_cons, List.length_append]; omega)
      simp only [List.flatten_cons] at hmem
      rw [hmem]
      simp only [read_page]
      rw [readBytes_getD c (address + off) 256 i (by omega)]
    simp only [verify_chunks, hnone]
    apply ih
    · intro p hp; exact hle p (by simp [hp])
    · intro i hi
      have h2 := h (input.length + i) (by
        simp only [List.flatten_cons, List.length_append]; omega)
      simp only [List.flatten_cons] at h2
      rw [List.getD_append_right _ _ _ _ (by omega)] at h2
      have hidx : input.length + i - input.length = i := by omega
      rw [hidx] at h2
      rw [h2]
      congr 1
      omega

/-- Round trip: after a flash_data run at a block-aligned address with
byte-valued data, every buffer byte is stored in the chip memory. -/
theorem flashedChip_mem (c : Chip) (data : List Nat) (address : Nat)
    (halign : address % 65536 = 0) (hdata : ∀ b ∈ data, b < 256) :
    ∀ n, n < data.length →
      (flashedChip c data address).mem (address + n) = data.getD n 0 := by
  intro n hn
  rw [flashedChip_eq]
  rw [blocksRun_mem (chunks 65536 data) c address 0 (address + n) (by omega)
    (chunks_shape 65536 (by omega) data)]
  rw [chunks_flatten]
  rw [if_pos (by omega)]
  have hidx : address + n - (address + 0) = n := by omega
  rw [hidx]
  apply land_255
  have hmem : data.getD n 0 ∈ data := by
    rw [List.getD_eq_getElem data 0 hn]
    exact List.getElem_mem hn
  exact hdata _ hmem

/-- Round trip: verify_data succeeds after flash_data on the same buffer
and block-aligned address. -/
theorem flash_then_verify (c : Chip) (data : List Nat) (address : Nat)
    (halign : address % 65536 = 0) (hdata : ∀ b ∈ data, b < 256) :
    verify_data (flashedChip c data address) data address = .ok () := by
  simp only [verify_data]
  rw [await_ready_fst]
  apply verify_chunks_ok
  · exact chunks_le 256 (by omega) data
  · intro i hi
    rw [chunks_flatten] at hi ⊢
    rw [show address + 0 + i = address + i by omega]
    exact (flashedChip_mem c data address halign hdata i hi).symm

/-- If the chip memory first diverges from the expected bytes at global
index k, the verify loop fails citing page (off + k) / 256 and absolute
index off + k, with the expected and actual bytes. -/
theorem verify_chunks_mismatch :
    ∀ (inputs : List (List Nat)) (c : Chip) (address off k : Nat),
      off % 256 = 0 →
      chunksShape 256 inputs →
      k < inputs.flatten.length →
      (∀ m, m < k → inputs.flatten.getD m 0 = c.mem (address + off + m)) →
      inputs.flatten.getD k 0 ≠ c.mem (address + off + k) →
      verify_chunks c inputs address off =
        .error (.mismatch ((off + k) / 256) (off + k)
          (inputs.flatten.getD k 0) (c.mem (address + off + k))) := by
  intro inputs
  induction inputs with
  | nil =>
    intro c address off k _ _ hk _ _
    simp at hk
  | cons input rest ih =>
    intro c address off k halign hshape hk hlt hne
    simp only [List.flatten_cons] at hk hlt hne ⊢
    simp only [List.length_append] at hk
    by_cases hkin : k < input.length
    · have hle : input.length ≤ 256 := by
        cases rest with
        | nil => simpa only [chunksShape] using hshape
        | cons r2 rs => exact le_of_eq hshape.1
      have hsome : firstMismatch input (read_page c (address + off)).1 =
          some (k, input.getD k 0, (read_page c (address + off)).1.getD k 0) := by
        apply firstMismatch_some k input _ hkin
          (by simp only [read_page]; simp [readBytes]; omega)
        · intro m hm
          have h1 : input.getD m 0 = (input ++ rest.flatten).getD m 0 :=
            (List.getD_append _ _ _ _ (by omega)).symm
          rw [h1, hlt m hm]
          simp only [read_page]
          rw [readBytes_getD c (address + off) 256 m (by omega)]
        · have h1 : input.getD k 0 = (input ++ rest.flatten).getD k 0 :=
            (List.getD_append _ _ _ _ hkin).symm
          rw [h1]
          simp only [read_page]
          rw [readBytes_getD c (address + off) 256 k (by omega)]
          exact hne
      simp only [verify_chunks, hsome]
      have h1 : input.getD k 0 = (input ++ rest.flatten).getD k 0 :=
        (List.getD_append _ _ _ _ hkin).symm
      simp only [read_page]
      rw [readBytes_getD c (address + off) 256 k (by omega)]
      rw [h1]
      rw [show k + off = off + k by omega]
      rw [show off / 256 = (off + k) / 256 by omega]
    · cases rest with
      | nil =>
        simp only [List.flatten_nil, List.length_nil] at hk
        omega
      | cons r2 rs =>
        obtain ⟨hfull, hrest⟩ : input.length = 256 ∧ chunksShape 256 (r2 :: rs) :=
          hshape
        have hnone : firstMismatch input (read_page c (address + off)).1 = none := by
          apply firstMismatch_none
          intro i hi1 _
          have h1 : input.getD i 0 = (input ++ (r2 :: rs).flatten).getD i 0 :=
            (List.getD_append _ _ _ _ hi1).symm
          rw [h1, hlt i (by omega)]
          simp only [read_page]
          rw [readBytes_getD c (address + off) 256 i (by omega)]
        simp only [verify_chunks, hnone]
        have h2 : (input ++ (r2 :: rs).flatten).getD k 0 =
            (r2 :: rs).flatten.getD (k - input.length) 0 :=
          List.getD_append_right _ _ _ _ (by omega)
        have hih := ih c address (off + input.length) (k - input.length)
          (by omega) hrest (by omega)
          (by
            intro m hm
            have h3 := hlt (input.length + m) (by omega)
            rw [List.getD_append_right _ _ _ _ (by omega)] at h3
            rw [show input.length + m - input.length = m by omega] at h3
            rw [h3]
            congr 1
            omega)
          (by
            rw [← h2]
            rw [show address + (off + input.length) + (k - input.length) =
              address + off + k by omega]
            exact hne)
        rw [show off + input.length + (k - input.length) = off + k by omega] at hih
        rw [show address + (off + input.length) + (k - input.length) =
          address + off + k by omega] at hih
        rw [← h2] at hih
        exact hih

/-- verify_data fails on the first divergence between the buffer and the
chip memory, citing page n / 256 and absolute byte index n. -/
theorem verify_data_mismatch (c : Chip) (data : List Nat) (address n : Nat)
    (hn : n < data.length)
    (hbefore : ∀ m, m < n → data.getD m 0 = c.mem (address + m))
    (hdiff : data.getD n 0 ≠ c.mem (address + n)) :
    verify_data c data address =
      .error (.mismatch (n / 256) n (data.getD n 0) (c.mem (address + n))) := by
  simp only [verify_data]
  rw [await_ready_fst]
  have h := verify_chunks_mismatch (chunks 256 data) ⟨c.mem, 0⟩ address 0 n
    (by omega) (chunks_shape 256 (by omega) data)
    (by rw [chunks_flatten]; exact hn)
    (by
      intro m hm
      rw [chunks_flatten]
      rw [show address + 0 + m = address + m by omega]
      exact hbefore m hm)
    (by
      rw [chunks_flatten]
      rw [show address + 0 + n = address + n by omega]
      exact hdiff)
  rw [chunks_flatten] at h
  rw [show address + 0 + n = address + n by omega] at h
  rw [show 0 + n = n by omega] at h
  exact h

/-- pageProgs distributes over appending page lists. -/
theorem pageProgs_append (address : Nat) :
    ∀ (l1 l2 : List (List Nat)) (off : Nat),
      pageProgs address off (l1 ++ l2) =
        pageProgs address off l1 ++ pageProgs address (off + l1.flatten.length) l2 := by
  intro l1
  induction l1 with
  | nil => intro l2 off; simp [pageProgs]
  | cons p ps ih =>
    intro l2 off
    simp only [List.cons_append, pageProgs, List.flatten_cons, List.length_append,
      List.append_eq, List.cons.injEq, true_and]
    rw [ih]
    congr 2
    omega

/-- pageProgs yields one transaction per page. -/
theorem pageProgs_length (address : Nat) :
    ∀ (l : List (List Nat)) (off : Nat), (pageProgs address off l).length = l.length := by
  intro l
  induction l with
  | nil => intro off; rfl
  | cons p ps ih => intro off; simp [pageProgs, ih]

/-- No transaction of an await_ready call is a program or an erase. -/
theorem await_ready_status (c : Chip) :
    ∀ op ∈ (await_ready c).2, ∃ s, op = Op.statusRead s := by
  rw [await_ready_trace]
  intro op hop
  rcases List.mem_append.mp hop with h | h
  · exact ⟨1, List.eq_of_mem_replicate h⟩
  · exact ⟨0, by simpa using h⟩

/-- The await_ready transactions are dropped by any filter rejecting
status reads. -/
theorem await_ready_filter (c : Chip) (f : Op → Bool)
    (hf : ∀ s, f (Op.statusRead s) = false) : ((await_ready c).2).filter f = [] := by
  rw [List.filter_eq_nil]
  intro op hop
  obtain ⟨s, rfl⟩ := await_ready_status c op hop
  simp [hf]

/-- The program transactions of the inner loop are exactly the expected
page programs. -/
theorem pagesRun_filter_program (pages : List (List Nat)) :
    ∀ (c : Chip) (address off : Nat),
      ((pagesRun c pages address off).2.2).filter Op.isProgram =
        pageProgs address off pages := by
  induction pages with
  | nil => intro c address off; rfl
  | cons page rest ih =>
    intro c address off
    simp only [pagesRun, pageProgs, List.filter_append]
    rw [await_ready_filter _ _ (fun s => rfl), ih]
    rfl

/-- The inner loop issues no erase transactions. -/
theorem pagesRun_filter_erase (pages : List (List Nat)) :
    ∀ (c : Chip) (address off : Nat),
      ((pagesRun c pages address off).2.2).filter Op.isErase = [] := by
  induction pages with
  | nil => intro c address off; rfl
  | cons page rest ih =>
    intro c address off
    simp only [pagesRun, List.filter_append]
    rw [await_ready_filter _ _ (fun s => rfl), ih]
    rfl

/-- The erase transactions of the outer loop are exactly the expected
block erases. -/
theorem blocksRun_filter_erase (blocks : List (List Nat)) :
    ∀ (c : Chip) (address off : Nat),
      ((blocksRun c blocks address off).2.2).filter Op.isErase =
        blockErases address off blocks := by
  induction blocks with
  | nil => intro c address off; rfl
  | cons block rest ih =>
    intro c address off
    simp only [blocksRun, blockErases, List.filter_append]
    rw [await_ready_filter _ _ (fun s => rfl), pagesRun_filter_erase, ih]
    rw [pagesRun_off, chunks_flatten]
    rfl

/-- The program transactions of the outer loop are exactly the expected
page programs over the per-block page chunking. -/
theorem blocksRun_filter_program (blocks : List (List Nat)) :
    ∀ (c : Chip) (address off : Nat),
      ((blocksRun c blocks address off).2.2).filter Op.isProgram =
        pageProgs address off ((blocks.map (chunks 256)).flatten) := by
  induction blocks with
  | nil => intro c address off; rfl
  | cons block rest ih =>
    intro c address off
    simp only [blocksRun, List.filter_append, List.map_cons, List.flatten_cons]
    rw [await_ready_filter _ _ (fun s => rfl), pagesRun_filter_program, ih]
    rw [pagesRun_off, chunks_flatten]
    rw [pageProgs_append]
    rw [chunks_flatten]
    rfl

/-- Folding the gate checker over an await_ready trace always ends with
the clear bit observed. -/
theorem gate_await (c : Chip) (ok r : Bool) :
    ((await_ready c).2).foldl gateStep (ok, r) = (ok, true) := by
  have h11 : Nat.land 1 1 = 1 := rfl
  have h01 : Nat.land 0 1 = 0 := rfl
  rw [await_ready_trace, List.foldl_append]
  have hrep : ∀ (k : Nat) (r : Bool),
      (List.replicate k (Op.statusRead 1)).foldl gateStep (ok, r) = (ok, r) := by
    intro k
    induction k with
    | zero => intro r; rfl
    | succ k ih =>
      intro r
      rw [List.replicate_succ, List.foldl_cons]
      have hstep : gateStep (ok, r) (Op.statusRead 1) = (ok, r) := by
        simp [gateStep, h11]
      rw [hstep]
      exact ih r
  rw [hrep]
  simp [gateStep, h01]

/-- Folding the gate checker over the inner loop trace preserves
validity, ending not-ready unless the loop was empty. -/
theorem gate_pages (pages : List (List Nat)) :
    ∀ (c : Chip) (address off : Nat) (ok r : Bool),
      ((pagesRun c pages address off).2.2).foldl gateStep (ok, r) =
        (ok, if pages.isEmpty then r else false) := by
  induction pages with
  | nil => intro c address off ok r; rfl
  | cons page rest ih =>
    intro c address off ok r
    simp only [pagesRun, List.append_assoc, List.foldl_append, gate_await]
    simp only [write_enable, List.cons_append, List.nil_append, List.foldl_cons,
      gateStep, Bool.and_true]
    rw [ih]
    simp

/-- Folding the gate checker over the outer loop trace preserves
validity. -/
theorem gate_blocks (blocks : List (List Nat)) :
    ∀ (c : Chip) (address off : Nat) (ok r : Bool),
      ((blocksRun c blocks address off).2.2).foldl gateStep (ok, r) =
        (ok, if blocks.isEmpty then r else false) := by
  induction blocks with
  | nil => intro c address off ok r; rfl
  | cons block rest ih =>
    intro c address off ok r
    simp only [blocksRun, List.append_assoc, List.foldl_append, gate_await]
    simp only [erase_block, write_enable, List.cons_append, List.nil_append,
      List.foldl_cons, gateStep, Bool.and_true]
    rw [gate_pages]
    rw [ih]
    simp

/-- The cover checker ignores await_ready transactions. -/
theorem cover_await (c : Chip) (ok : Bool) (le : Option Nat) :
    ((await_ready c).2).foldl coverStep (ok, le) = (ok, le) := by
  rw [await_ready_trace, List.foldl_append]
  have hrep : ∀ k,
      (List.replicate k (Op.statusRead 1)).foldl coverStep (ok, le) = (ok, le) := by
    intro k
    induction k with
    | zero => rfl
    | succ k ih =>
      rw [List.replicate_succ, List.foldl_cons]
      exact ih
  rw [hrep]
  rfl

/-- The cover checker accepts the inner loop when the whole programmed
span lies inside the erased block recorded in its state. -/
theorem cover_pages (pages : List (List Nat)) :
    ∀ (c : Chip) (address off e : Nat) (ok : Bool),
      e ≤ address + off →
      address + off + pages.flatten.length ≤ e + 65536 →
      ((pagesRun c pages address off).2.2).foldl coverStep (ok, some e) =
        (ok, some e) := by
  induction pages with
  | nil => intro c address off e ok _ _; rfl
  | cons page rest ih =>
    intro c address off e ok hlo hhi
    simp only [List.flatten_cons, List.length_append] at hhi
    simp only [pagesRun, List.append_assoc, List.foldl_append, cover_await]
    simp only [write_enable, List.cons_append, List.nil_append, List.foldl_cons,
      List.foldl_nil]
    rw [show coverStep (ok, some e) Op.writeEnable = (ok, some e) from rfl]
    have hstep : coverStep (ok, some e) (Op.program (address + off) page) =
        (ok, some e) := by
      simp only [coverStep]
      rw [decide_eq_true
        (show e ≤ address + off ∧ address + off + page.length ≤ e + 65536 by omega)]
      simp
    rw [hstep]
    exact ih _ address (off + page.length) e ok (by omega) (by omega)

/-- The cover checker accepts the outer loop trace whenever the blocks
have the chunking shape: every program lands inside the span of its
block's erase. -/
theorem cover_blocks (blocks : List (List Nat)) :
    ∀ (c : Chip) (address off : Nat) (ok : Bool) (le : Option Nat),
      chunksShape 65536 blocks →
      ∃ le2, ((blocksRun c blocks address off).2.2).foldl coverStep (ok, le) =
        (ok, le2) := by
  induction blocks with
  | nil => intro c address off ok le _; exact ⟨le, rfl⟩
  | cons block rest ih =>
    intro c address off ok le hshape
    have hble : block.length ≤ 65536 := by
      cases rest with
      | nil => simpa only [chunksShape] using hshape
      | cons r2 rs => exact le_of_eq hshape.1
    have hrest : chunksShape 65536 rest := by
      cases rest with
      | nil => trivial
      | cons r2 rs => exact hshape.2
    simp only [blocksRun, List.append_assoc, List.foldl_append, cover_await]
    simp only [erase_block, write_enable, List.cons_append, List.nil_append,
      List.foldl_cons, List.foldl_nil]
    rw [show coverStep (ok, le) Op.writeEnable = (ok, le) from rfl]
    rw [show coverStep (ok, le) (Op.eraseBlock (address + off)) =
      (ok, some (address + off)) from rfl]
    rw [cover_pages _ _ _ _ _ _ (le_refl _) (by rw [chunks_flatten]; omega)]
    rw [pagesRun_off, chunks_flatten]
    exact ih _ address (off + block.length) ok (some (address + off)) hrest

/-- The adjacency checker leaves an await_ready trace not-enabled. -/
theorem we_await (c : Chip) (ok w : Bool) :
    ((await_ready c).2).foldl weStep (ok, w) = (ok, false) := by
  rw [await_ready_trace, List.foldl_append]
  have hrep : ∀ (k : Nat) (w : Bool),
      (List.replicate k (Op.statusRead 1)).foldl weStep (ok, w) =
        (ok, if k = 0 then w else false) := by
    intro k
    induction k with
    | zero => intro w; rfl
    | succ k ih =>
      intro w
      rw [List.replicate_succ, List.foldl_cons]
      rw [show weStep (ok, w) (Op.statusRead 1) = (ok, false) from rfl]
      rw [ih false]
      simp
  rw [hrep]
  rfl

/-- The adjacency checker preserves validity over the inner loop. -/
theorem we_pages (pages : List (List Nat)) :
    ∀ (c : Chip) (address off : Nat) (ok w : Bool),
      ((pagesRun c pages address off).2.2).foldl weStep (ok, w) =
        (ok, if pages.isEmpty then w else false) := by
  induction pages with
  | nil => intro c address off ok w; rfl
  | cons page rest ih =>
    intro c address off ok w
    simp only [pagesRun, List.append_assoc, List.foldl_append, we_await]
    simp only [write_enable, List.cons_append, List.nil_append, List.foldl_cons,
      List.foldl_nil]
    rw [show weStep (ok, false) Op.writeEnable = (ok, true) from rfl]
    rw [show weStep (ok, true) (Op.program (address + off) page) =
      (ok && true, false) from rfl]
    rw [Bool.and_true]
    rw [ih]
    simp

/-- The adjacency checker preserves validity over the outer loop. -/
theorem we_blocks (blocks : List (List Nat)) :
    ∀ (c : Chip) (address off : Nat) (ok w : Bool),
      ((blocksRun c blocks address off).2.2).foldl weStep (ok, w) =
        (ok, if blocks.isEmpty then w else false) := by
  induction blocks with
  | nil => intro c address off ok w; rfl
  | cons block rest ih =>
    intro c address off ok w
    simp only [blocksRun, List.append_assoc, List.foldl_append, we_await]
    simp only [erase_block, write_enable, List.cons_append, List.nil_append,
      List.foldl_cons, List.foldl_nil]
    rw [show weStep (ok, false) Op.writeEnable = (ok, true) from rfl]
    rw [show weStep (ok, true) (Op.eraseBlock (address + off)) =
      (ok && true, false) from rfl]
    rw [Bool.and_true]
    rw [we_pages]
    rw [ih]
    simp

/-- C1: for every byte buffer and base address, flash_data partitions
the buffer into successive 65536-byte chunks, erased at consecutive
addresses, and into successive 256-byte pages, programmed at consecutive
addresses; a 70000-byte buffer programmed at address 0 issues exactly
the two erases at 0 and 65536 and 274 page programs. -/
theorem claim_C1 (c : Chip) (data : List Nat) (address : Nat) :
    (chunks 256 data).flatten = data ∧
    (flashedTrace c data address).filter Op.isErase =
      blockErases address 0 (chunks 65536 data) ∧
    (flashedTrace c data address).filter Op.isProgram =
      pageProgs address 0 (chunks 256 data) ∧
    (data.length = 70000 → address = 0 →
      (flashedTrace c data address).filter Op.isErase =
        [Op.eraseBlock 0, Op.eraseBlock 65536] ∧
      ((flashedTrace c data address).filter Op.isProgram).length = 274) := by
  have herase : (flashedTrace c data address).filter Op.isErase =
      blockErases address 0 (chunks 65536 data) := by
    rw [flashedTrace_eq, blocksRun_filter_erase]
  have hprog : (flashedTrace c data address).filter Op.isProgram =
      pageProgs address 0 (chunks 256 data) := by
    rw [flashedTrace_eq, blocksRun_filter_program]
    rw [chunks_nested 65536 256 (by omega) (by omega) ⟨256, by norm_num⟩ data]
  refine ⟨chunks_flatten 256 data, herase, hprog, ?_⟩
  intro hlen haddr
  subst haddr
  constructor
  · rw [herase]
    have hne : data ≠ [] := by
      intro h; rw [h] at hlen; simp at hlen
    rw [chunks_eq_cons 65536 (by omega) data hne]
    have hlen2 : (data.drop 65536).length = 4464 := by
      simp only [List.length_drop, hlen]
    have hne2 : data.drop 65536 ≠ [] := by
      intro h
      rw [h] at hlen2
      simp at hlen2
    rw [chunks_eq_cons 65536 (by omega) (data.drop 65536) hne2]
    have hnil : (data.drop 65536).drop 65536 = [] := by
      rw [List.drop_eq_nil_iff]
      omega
    rw [hnil]
    rw [show chunks 65536 ([] : List Nat) = [] from rfl]
    simp only [blockErases, List.length_take, hlen]
    norm_num
  · rw [hprog, pageProgs_length, chunks_length 256 (by omega) data, hlen]

/-- Witness for C1 at a concrete 70000-byte buffer. -/
theorem claim_C1_witness :
    (List.replicate 70000 (0 : Nat)).length = 70000 ∧
    ((flashedTrace chip0 (List.replicate 70000 0) 0).filter Op.isErase =
      [Op.eraseBlock 0, Op.eraseBlock 65536] ∧
     ((flashedTrace chip0 (List.replicate 70000 0) 0).filter Op.isProgram).length
       = 274) :=
  ⟨List.length_replicate 70000 0,
   (claim_C1 chip0 (List.replicate 70000 0) 0).2.2.2
     (List.length_replicate 70000 0) rfl⟩

/-- C2: verify_data fails on the first divergence at absolute byte n,
citing page n / 256 and absolute byte index n, independently of any
memory contents past n. -/
theorem claim_C2 (c : Chip) (data : List Nat) (address n : Nat)
    (hn : n < data.length)
    (hbefore : ∀ m, m < n → data.getD m 0 = c.mem (address + m))
    (hdiff : data.getD n 0 ≠ c.mem (address + n)) :
    verify_data c data address =
      .error (.mismatch (n / 256) n (data.getD n 0) (c.mem (address + n))) :=
  verify_data_mismatch c data address n hn hbefore hdiff

/-- Witness for C2: an all-zero 301-byte buffer against a readback
differing first at absolute byte 300 fails citing page 1 and index
300. -/
theorem claim_C2_witness :
    300 < (List.replicate 301 (0 : Nat)).length ∧
    verify_data chipMis (List.replicate 301 0) 0 =
      .error (.mismatch 1 300 0 1) :=
  ⟨by rw [List.length_replicate]; omega,
   claim_C2 chipMis (List.replicate 301 0) 0 300
     (by rw [List.length_replicate]; omega) (by decide) (by decide)⟩

/-- C3: write_page rejects data longer than 256 bytes with the invalid
argument error, issuing no transaction at all, and succeeds on data of
at most 256 bytes. -/
theorem claim_C3 (c : Chip) (data : List Nat) (address : Nat) :
    (256 < data.length →
      write_page c data address = .error "Page data must not exceed 256 bytes") ∧
    (data.length ≤ 256 → ∃ r, write_page c data address = .ok r) := by
  constructor
  · intro h
    simp only [write_page, if_pos h]
  · intro h
    exact ⟨(c.programAt address data, write_enable ++ [Op.program address data]),
      by simp only [write_page, if_neg (by omega : ¬ 256 < data.length)]⟩

/-- Witness for C3 at lengths 257 and 256. -/
theorem claim_C3_witness :
    (256 < (List.replicate 257 (0 : Nat)).length ∧
      write_page chip0 (List.replicate 257 0) 0 =
        .error "Page data must not exceed 256 bytes") ∧
    ((List.replicate 256 (0 : Nat)).length ≤ 256 ∧
      ∃ r, write_page chip0 (List.replicate 256 0) 0 = .ok r) :=
  ⟨⟨by rw [List.length_replicate]; omega,
     (claim_C3 chip0 (List.replicate 257 0) 0).1
       (by rw [List.length_replicate]; omega)⟩,
   ⟨by rw [List.length_replicate],
     (claim_C3 chip0 (List.replicate 256 0) 0).2
       (by rw [List.length_replicate])⟩⟩

/-- C4: the byte primitives are most-significant-bit first in both
directions: write emits bit 7 first down to bit 0, and read assembles
the first sampled level as bit 7 down to the last as bit 0. -/
theorem claim_C4 :
    (∀ b : Fin 256, writeLevels b.val =
      [b.val.testBit 7, b.val.testBit 6, b.val.testBit 5, b.val.testBit 4,
       b.val.testBit 3, b.val.testBit 2, b.val.testBit 1, b.val.testBit 0]) ∧
    (∀ b0 b1 b2 b3 b4 b5 b6 b7 : Bool,
      readByte [b0, b1, b2, b3, b4, b5, b6, b7] =
        (if b0 then 128 else 0) + (if b1 then 64 else 0) +
        (if b2 then 32 else 0) + (if b3 then 16 else 0) +
        (if b4 then 8 else 0) + (if b5 then 4 else 0) +
        (if b6 then 2 else 0) + (if b7 then 1 else 0)) := by
  constructor <;> decide

/-- C5: round trip: verify_data succeeds after flash_data of the same
buffer at the same block-aligned address, for buffers of byte values,
against the simulated chip model. -/
theorem claim_C5 (c : Chip) (data : List Nat) (address : Nat)
    (halign : address % 65536 = 0) (hdata : ∀ b ∈ data, b < 256) :
    verify_data (flashedChip c data address) data address = .ok () :=
  flash_then_verify c data address halign hdata

/-- Witness for C5 at a concrete buffer and chip. -/
theorem claim_C5_witness :
    0 % 65536 = 0 ∧ (∀ b ∈ [5, 10, 255], b < 256) ∧
    verify_data (flashedChip chip0 [5, 10, 255] 0) [5, 10, 255] 0 = .ok () :=
  ⟨rfl, by decide, claim_C5 chip0 [5, 10, 255] 0 rfl (by decide)⟩

/-- C6: in every flash_data run, every program and erase transaction is
issued only after a status read observed the busy bit clear, issued
after the previous program or erase, and every page program falls
inside the 65536-byte span of the most recent block erase. -/
theorem claim_C6 (c : Chip) (data : List Nat) (address : Nat) :
    busyGated (flashedTrace c data address) = true ∧
    eraseCovered (flashedTrace c data address) = true := by
  constructor
  · simp only [busyGated]
    rw [flashedTrace_eq, gate_blocks]
  · simp only [eraseCovered]
    rw [flashedTrace_eq]
    obtain ⟨le2, h⟩ := cover_blocks (chunks 65536 data) c address 0 true none
      (chunks_shape 65536 (by omega) data)
    rw [h]

/-- C7: in every flash_data run, every program and erase transaction is
immediately preceded by a write-enable transaction. -/
theorem claim_C7 (c : Chip) (data : List Nat) (address : Nat) :
    writeEnabled (flashedTrace c data address) = true := by
  simp only [writeEnabled]
  rw [flashedTrace_eq, we_blocks]

/-- C8: the opcode table matches the chip contract and every command
transaction writes its opcode first, followed, for address-taking
commands, by the 3 address bytes most-significant byte first. -/
theorem claim_C8 :
    PROGRAM = 0x02 ∧ READ = 0x03 ∧ WRITE_DISABLE = 0x04 ∧
    READ_STATUS_1 = 0x05 ∧ WRITE_ENABLE = 0x06 ∧ BLOCK_ERASE = 0xD8 ∧
    WAKE = 0xAB ∧
    (∀ a, addressBytes a = [a / 65536 % 256, a / 256 % 256, a % 256]) ∧
    (∀ a d, Op.writtenBytes (.program a d) =
      0x02 :: (a / 65536 % 256 :: a / 256 % 256 :: a % 256 :: d)) ∧
    (∀ a, Op.writtenBytes (.eraseBlock a) =
      [0xD8, a / 65536 % 256, a / 256 % 256, a % 256]) ∧
    (∀ a out, Op.writtenBytes (.pageRead a out) =
      [0x03, a / 65536 % 256, a / 256 % 256, a % 256]) ∧
    (∀ s, Op.writtenBytes (.statusRead s) = [0x05]) ∧
    Op.writtenBytes .writeEnable = [0x06] := by
  have e16 : (2 : Nat) ^ 16 = 65536 := by norm_num
  have e8 : (2 : Nat) ^ 8 = 256 := by norm_num
  have haddr : ∀ a : Nat, addressBytes a =
      [a / 65536 % 256, a / 256 % 256, a % 256] := by
    intro a
    simp only [addressBytes, Nat.shiftRight_eq_div_pow, e16, e8]
  refine ⟨rfl, rfl, rfl, rfl, rfl, rfl, rfl, haddr, ?_, ?_, ?_, ?_, rfl⟩
  · intro a d
    simp [Op.writtenBytes, haddr, PROGRAM]
  · intro a
    simp [Op.writtenBytes, haddr, BLOCK_ERASE]
  · intro a out
    simp [Op.writtenBytes, haddr, READ]
  · intro s
    simp [Op.writtenBytes, READ_STATUS_1]

/-- C9: the three transmitted address bytes depend only on the address
modulo 2^24 = 16777216, so higher bits are silently truncated. -/
theorem claim_C9 (a : Nat) : addressBytes (a % 16777216) = addressBytes a := by
  have e16 : (2 : Nat) ^ 16 = 65536 := by norm_num
  have e8 : (2 : Nat) ^ 8 = 256 := by norm_num
  simp only [addressBytes, Nat.shiftRight_eq_div_pow, e16, e8]
  have h1 : a % 16777216 / 65536 % 256 = a / 65536 % 256 := by omega
  have h2 : a % 16777216 / 256 % 256 = a / 256 % 256 := by omega
  have h3 : a % 16777216 % 256 = a % 256 := by omega
  rw [h1, h2, h3]

/-- C10: flash_data never returns an error, and on the empty buffer it
issues no transactions at all. -/
theorem claim_C10 :
    (∀ (c : Chip) (data : List Nat) (address : Nat),
      ∃ r, flash_data c data address = .ok r) ∧
    (∀ (c : Chip) (address : Nat), flash_data c [] address = .ok (c, [])) :=
  ⟨fun c data address => ⟨_, flash_data_eq c data address⟩,
   fun c address => rfl⟩
